import Mathlib

/-!
# Verification of the playlist co-occurrence recommendation core

Shallow embedding of the co-occurrence / pairwise-affinity engine of the
music-recommendation backend (`src/backend/db_utils.py`, `src/backend/app.py`,
schema in `src/backend/db_final.py`).

Modelling conventions:
* SQLite tables are lists of rows in `rowid` (insertion) order.
* A track identifier (a `TEXT` column) is embedded as its character content,
  `List Char` — exactly the `data` field of a Lean `String`.  Python's
  `sorted` / `>` on `str` and SQLite's BINARY collation on `TEXT` all agree
  with the lexicographic order on that character list, which is the
  `LinearOrder (List Char)` instance used below.
* The Python accumulation dict (`cooccurrence_dict`) is an association list
  with Python-dict semantics: updating an existing key keeps its position,
  a new key is appended (insertion-order iteration, as in Python ≥ 3.7).
* The `track_cooccurrence` table's `id INTEGER PRIMARY KEY AUTOINCREMENT`
  column is modelled by a persistent sequence counter (`seq`, mirroring
  `sqlite_sequence`): `DELETE FROM` does not reset it and fresh rows always
  receive ids above every id ever used.
-/

namespace Auralyze

abbrev TrackId := List Char

/-- A row of the `playlist_tracks` table: `(playlist_id, track_id)`,
rows listed in insertion (`rowid`) order.  The schema declares
`UNIQUE(playlist_id, track_id)`. -/
abbrev PlaylistTracks := List (Nat × TrackId)

/-- `SELECT track_id FROM playlist_tracks WHERE playlist_id = ?`:
the member tracks of one playlist, in stored order. -/
def playlistTracksOf (pts : PlaylistTracks) (pid : Nat) : List TrackId :=
  (pts.filter (fun r => r.1 = pid)).map (fun r => r.2)

/-- `itertools.combinations(l, 2)`: all pairs `(l[i], l[j])` with `i < j`,
in the order the Python iterator yields them. -/
def combinations2 : List TrackId → List (TrackId × TrackId)
  | [] => []
  | a :: rest => rest.map (fun b => (a, b)) ++ combinations2 rest

/-- The canonicalization step of `compute_track_cooccurrence`
(`if track_a > track_b: track_a, track_b = track_b, track_a`). -/
def canonPair (p : TrackId × TrackId) : TrackId × TrackId :=
  if p.2 < p.1 then (p.2, p.1) else p

/-- Python's `sorted` on track identifiers (lexicographic). -/
def sortTracks (l : List TrackId) : List TrackId :=
  l.insertionSort (· ≤ ·)

/-- The pair observations one playlist contributes in
`compute_track_cooccurrence`: skip playlists with fewer than two membership
rows, otherwise all pairs of `sorted(tracks)`, canonicalized. -/
def playlistPairs (pts : PlaylistTracks) (pid : Nat) : List (TrackId × TrackId) :=
  if (playlistTracksOf pts pid).length < 2 then []
  else (combinations2 (sortTracks (playlistTracksOf pts pid))).map canonPair

/-- One step of the Python dict accumulation
`cooccurrence_dict[pair_key] = cooccurrence_dict.get(pair_key, 0) + 1`:
an existing key keeps its position, a new key is appended. -/
def bump (d : List ((TrackId × TrackId) × Nat)) (k : TrackId × TrackId) :
    List ((TrackId × TrackId) × Nat) :=
  match d with
  | [] => [(k, 1)]
  | (k', c) :: rest => if k' = k then (k', c + 1) :: rest else (k', c) :: bump rest k

/-- The in-memory accumulation dict of `compute_track_cooccurrence` after
processing every playlist (in `SELECT id FROM playlists` order). -/
def cooccurrenceDict (pls : List Nat) (pts : PlaylistTracks) :
    List ((TrackId × TrackId) × Nat) :=
  ((pls.map (playlistPairs pts)).flatten).foldl bump []

/-- A row of the `track_cooccurrence` table minus its surrogate columns. -/
structure CoRow where
  track_a : TrackId
  track_b : TrackId
  cooccurrence_count : Nat
deriving DecidableEq, Repr

/-- The `track_cooccurrence` table together with its AUTOINCREMENT
sequence (`sqlite_sequence` entry); each stored row carries its `id`. -/
structure CoTable where
  seq : Nat
  rows : List (Nat × CoRow)
deriving DecidableEq, Repr

/-- Assign consecutive AUTOINCREMENT ids, starting above `seq`. -/
def assignIds (seq : Nat) : List CoRow → List (Nat × CoRow)
  | [] => []
  | r :: rs => (seq + 1, r) :: assignIds (seq + 1) rs

def dictToRows (d : List ((TrackId × TrackId) × Nat)) : List CoRow :=
  d.map (fun kc => ⟨kc.1.1, kc.1.2, kc.2⟩)

/-- `compute_track_cooccurrence` (db_utils.py, lines 168-222): delete all
rows of `track_cooccurrence`, accumulate the pair counts over every
playlist, bulk-insert the dict content, return the number of distinct
pairs.  The AUTOINCREMENT sequence survives the `DELETE`.  Not modelled:
the `CHECK(track_a < track_b)` constraint (db_final.py line 150) would
abort the bulk insert with an `IntegrityError` on a degenerate `(A, A)`
pair; such a pair can only arise from a playlist listing one track twice,
a state `UNIQUE(playlist_id, track_id)` makes unrepresentable, and the
theorems below either restrict to duplicate-free memberships or are
insensitive to the difference. -/
def compute_track_cooccurrence (t : CoTable) (pls : List Nat)
    (pts : PlaylistTracks) : CoTable × Nat :=
  let d := cooccurrenceDict pls pts
  (⟨t.seq + d.length, assignIds t.seq (dictToRows d)⟩, d.length)

/-- The visible non-surrogate content of the table. -/
def storedRows (t : CoTable) : List CoRow :=
  t.rows.map (fun r => r.2)

/-- `INSERT INTO playlist_tracks (playlist_id, track_id) VALUES (?, ?)`
in `add_track_to_playlist` (app.py, lines 641-679): the
`UNIQUE(playlist_id, track_id)` constraint makes a duplicate insert raise
`IntegrityError`, which the handler catches, leaving the table unchanged. -/
def add_track_to_playlist (pts : PlaylistTracks) (pid : Nat) (tid : TrackId) :
    PlaylistTracks :=
  if (pid, tid) ∈ pts then pts else pts ++ [(pid, tid)]

/-- `cooccurrence_dict.get(k, 0)`. -/
def lookupD : List ((TrackId × TrackId) × Nat) → (TrackId × TrackId) → Nat
  | [], _ => 0
  | (k', c) :: rest, k => if k' = k then c else lookupD rest k

def keysD (d : List ((TrackId × TrackId) × Nat)) : List (TrackId × TrackId) :=
  d.map (fun kc => kc.1)

/-- Multiplicity of a pair in a list of pairs (explicit recursion, so that
all proofs stay independent of `BEq` instance choices). -/
def countPair : List (TrackId × TrackId) → (TrackId × TrackId) → Nat
  | [], _ => 0
  | p :: rest, k => (if p = k then 1 else 0) + countPair rest k

/-- The number of listed playlists whose membership contains both `a` and
`b` (the quantity named by the spec as the co-occurrence count). -/
def playlistsContainingBoth (pls : List Nat) (pts : PlaylistTracks)
    (a b : TrackId) : Nat :=
  (pls.filter (fun pid =>
    a ∈ playlistTracksOf pts pid ∧ b ∈ playlistTracksOf pts pid)).length

/-! ### Affinity lookup (`get_cooccurring_tracks`, db_utils.py lines 224-248)

The SQL is
`SELECT CASE WHEN track_a = ? THEN track_b ELSE track_a END as related_track_id,
cooccurrence_count FROM track_cooccurrence WHERE track_a = ? OR track_b = ?
ORDER BY cooccurrence_count DESC LIMIT ?`.
The `ORDER BY` names `cooccurrence_count DESC` as its only key; SQL leaves
the relative order of tied rows unspecified, and the source does not
determine it (for instance either scan direction of
`idx_cooccurrence_count` is a valid plan, each giving a different
equal-count order).  The embedding must pick some computable resolution —
a stable sort in stored-row (`rowid`) order below — but only properties
invariant under that choice are claimed about the lookup. -/

/-- The only comparison performed by the query's `ORDER BY`:
count descending. -/
def countDescRel (x y : TrackId × Nat) : Prop := y.2 ≤ x.2

instance : DecidableRel countDescRel := fun x y => Nat.decLe y.2 x.2

instance : IsTotal (TrackId × Nat) countDescRel := ⟨fun a b => le_total b.2 a.2⟩

instance : IsTrans (TrackId × Nat) countDescRel :=
  ⟨fun _ _ _ h1 h2 => le_trans h2 h1⟩

/-- The `WHERE` filter and the `CASE` projection of the query, applied over
the stored rows in `rowid` order. -/
def relatedEntries (rows : List CoRow) (tid : TrackId) : List (TrackId × Nat) :=
  (rows.filter (fun r => r.track_a = tid ∨ r.track_b = tid)).map
    (fun r => (if r.track_a = tid then r.track_b else r.track_a,
      r.cooccurrence_count))

/-- `get_cooccurring_tracks(track_id, limit)`: filter, project, sort by
count descending (ties resolved as stored order — one arbitrary choice
among the orders the SQL admits; see the section comment), truncate to
`limit`. -/
def get_cooccurring_tracks (rows : List CoRow) (tid : TrackId) (limit : Nat) :
    List (TrackId × Nat) :=
  (List.insertionSort countDescRel (relatedEntries rows tid)).take limit

/-! ### The recommendation endpoint (`get_recommendations`, app.py 868-900) -/

/-- `SELECT track_id FROM likes WHERE user_id = ? LIMIT 1`: the user's
first like in stored order, if any. -/
def firstLike (likes : List (Nat × TrackId)) (uid : Nat) : Option TrackId :=
  ((likes.filter (fun l => l.1 = uid)).map (fun l => l.2)).head?

/-- The JSON response shape of the endpoint: HTTP status, `success` flag,
the `recommendations` list when present, the `message` when present. -/
structure RecResponse where
  success : Bool
  status : Nat
  recommendations : Option (List TrackId)
  message : Option String
deriving DecidableEq, Repr

/-- The message returned when the user has no likes. -/
def noLikesMessage : String := "좋아요한 곡이 없습니다. 먼저 곡을 좋아요 해주세요."

/-- `get_recommendations(user_id)` (app.py lines 868-900): take the user's
first like; with no like, answer 404 with `success: false` and a message
and no recommendation list; otherwise answer 200 with the identifiers of
up to 4 co-occurring tracks of that seed. -/
def get_recommendations (likes : List (Nat × TrackId)) (rows : List CoRow)
    (uid : Nat) : RecResponse :=
  match firstLike likes uid with
  | none => ⟨false, 404, none, some noLikesMessage⟩
  | some tid =>
      ⟨true, 200, some ((get_cooccurring_tracks rows tid 4).map (fun p => p.1)),
        none⟩

/-! ### The affinity scorer (C9) and the track catalog (C10) -/

/-- Modelled from the spec: the Affinity Scorer's PMI formula is absent
from `src/` (per the spec it lived only in the dead listening-history
lineage, whose code is not in the repository snapshot); faithful to the
spec's words: `score_pmi = ln(co_count * N / (a_count * b_count))` when
both marginals are positive, else 0.  The logarithm is an abstract
parameter so the definition stays executable; the arithmetic is exact
rational arithmetic, which has no NaN or infinities. -/
def score_pmi (log : ℚ → ℚ) (co_count N a_count b_count : Nat) : ℚ :=
  if 0 < a_count ∧ 0 < b_count then
    log ((co_count * N : ℚ) / (a_count * b_count))
  else 0

/-- A row of the `tracks` table (db_final.py lines 94-109): identifier plus
the metadata columns written by `save_track_from_spotify`. -/
structure TrackRow where
  id : TrackId
  title : Option String
  artist : Option String
  album : Option String
  image : Option String
  preview_url : Option String
  spotify_url : Option String
  uri : Option String
  release_date : Option String
  duration_ms : Option Int
  popularity : Option Int
deriving DecidableEq, Repr

/-- `save_track_from_spotify` (db_utils.py lines 26-64): `INSERT OR IGNORE
INTO tracks ...` keyed by the `id TEXT PRIMARY KEY` — when a row with the
same id exists the insert is ignored and the table is untouched, otherwise
the new row is appended. -/
def save_track_from_spotify (tracks : List TrackRow) (td : TrackRow) :
    List TrackRow :=
  if td.id ∈ tracks.map (fun r => r.id) then tracks else tracks ++ [td]

/-! ## Association-list (Python dict) lemmas -/

theorem lookupD_bump_self (d : List ((TrackId × TrackId) × Nat)) (k : TrackId × TrackId) :
    lookupD (bump d k) k = lookupD d k + 1 := by
  induction d with
  | nil => simp [bump, lookupD]
  | cons hd rest ih =>
    obtain ⟨k', c⟩ := hd
    by_cases h : k' = k
    · simp [bump, lookupD, h]
    · simp [bump, lookupD, h, ih]

theorem lookupD_bump_ne (d : List ((TrackId × TrackId) × Nat))
    (k k' : TrackId × TrackId) (h : k' ≠ k) :
    lookupD (bump d k) k' = lookupD d k' := by
  have hkk : k ≠ k' := Ne.symm h
  induction d with
  | nil => simp [bump, lookupD, hkk]
  | cons hd rest ih =>
    obtain ⟨k₀, c⟩ := hd
    by_cases h0 : k₀ = k
    · subst h0
      simp [bump, lookupD, hkk]
    · simp [bump, lookupD, h0, ih]

theorem keysD_bump (d : List ((TrackId × TrackId) × Nat)) (k : TrackId × TrackId) :
    keysD (bump d k) = if k ∈ keysD d then keysD d else keysD d ++ [k] := by
  induction d with
  | nil => simp [bump, keysD]
  | cons hd rest ih =>
    obtain ⟨k₀, c⟩ := hd
    by_cases h0 : k₀ = k
    · subst h0
      simp [bump, keysD]
    · have hne : k ≠ k₀ := fun he => h0 he.symm
      simp only [bump, if_neg h0, keysD, List.map_cons] at ih ⊢
      rw [ih]
      by_cases hm : k ∈ List.map (fun kc => kc.1) rest
      · simp [hm, hne]
      · simp [hm, hne]

theorem mem_keysD_bump (d : List ((TrackId × TrackId) × Nat)) (k k' : TrackId × TrackId) :
    k' ∈ keysD (bump d k) ↔ k' ∈ keysD d ∨ k' = k := by
  rw [keysD_bump]
  by_cases hm : k ∈ keysD d
  · rw [if_pos hm]
    constructor
    · exact Or.inl
    · rintro (h | rfl)
      · exact h
      · exact hm
  · rw [if_neg hm]
    simp [List.mem_append]

theorem nodup_keysD_bump (d : List ((TrackId × TrackId) × Nat)) (k : TrackId × TrackId)
    (h : (keysD d).Nodup) : (keysD (bump d k)).Nodup := by
  rw [keysD_bump]
  by_cases hm : k ∈ keysD d
  · rw [if_pos hm]; exact h
  · rw [if_neg hm]
    refine List.Nodup.append h (List.nodup_singleton _) ?_
    intro x hx hx'
    rw [List.mem_singleton] at hx'
    exact hm (hx' ▸ hx)

theorem pos_bump (d : List ((TrackId × TrackId) × Nat)) (k : TrackId × TrackId)
    (h : ∀ kc ∈ d, 0 < kc.2) : ∀ kc ∈ bump d k, 0 < kc.2 := by
  induction d with
  | nil => simp [bump]
  | cons hd rest ih =>
    obtain ⟨k₀, c⟩ := hd
    by_cases h0 : k₀ = k
    · intro kc hkc
      simp only [bump, h0, if_pos rfl] at hkc
      rcases List.mem_cons.1 hkc with h' | h'
      · subst h'; simp
      · exact h _ (List.mem_cons_of_mem _ h')
    · intro kc hkc
      simp only [bump, h0, if_neg h0] at hkc
      rcases List.mem_cons.1 hkc with h' | h'
      · subst h'; exact h _ (List.mem_cons_self _ _)
      · exact ih (fun kc' hkc' => h _ (List.mem_cons_of_mem _ hkc')) _ h'

theorem countPair_append (l₁ l₂ : List (TrackId × TrackId)) (k : TrackId × TrackId) :
    countPair (l₁ ++ l₂) k = countPair l₁ k + countPair l₂ k := by
  induction l₁ with
  | nil => simp [countPair]
  | cons p rest ih =>
    show (if p = k then 1 else 0) + countPair (rest ++ l₂) k
        = ((if p = k then 1 else 0) + countPair rest k) + countPair l₂ k
    rw [ih]
    omega

theorem countPair_flatten (L : List (List (TrackId × TrackId))) (k : TrackId × TrackId) :
    countPair L.flatten k = (L.map (fun l => countPair l k)).sum := by
  induction L with
  | nil => rfl
  | cons l rest ih =>
    rw [List.flatten_cons, countPair_append, ih, List.map_cons, List.sum_cons]

theorem countPair_eq_zero_of_not_mem (l : List (TrackId × TrackId))
    (k : TrackId × TrackId) (h : k ∉ l) : countPair l k = 0 := by
  induction l with
  | nil => rfl
  | cons p rest ih =>
    have hp : p ≠ k := fun he => h (he ▸ List.mem_cons_self _ _)
    simp only [countPair, if_neg hp]
    have := ih (fun hm => h (List.mem_cons_of_mem _ hm))
    omega

theorem countPair_eq_one_of_mem (l : List (TrackId × TrackId))
    (k : TrackId × TrackId) (hnd : l.Nodup) (h : k ∈ l) : countPair l k = 1 := by
  induction l with
  | nil => cases h
  | cons p rest ih =>
    rw [List.nodup_cons] at hnd
    rcases List.mem_cons.1 h with rfl | hm
    · rw [countPair, if_pos rfl, countPair_eq_zero_of_not_mem _ _ hnd.1]
    · have hp : p ≠ k := fun he => hnd.1 (he ▸ hm)
      rw [countPair, if_neg hp, ih hnd.2 hm]

theorem countPair_pos_iff_mem (l : List (TrackId × TrackId)) (k : TrackId × TrackId) :
    0 < countPair l k ↔ k ∈ l := by
  induction l with
  | nil => simp [countPair]
  | cons p rest ih =>
    by_cases hp : p = k
    · simp [countPair, hp]
    · have : k ≠ p := fun he => hp he.symm
      simp [countPair, hp, ih, this]

theorem lookupD_foldl (ks : List (TrackId × TrackId))
    (d : List ((TrackId × TrackId) × Nat)) (k : TrackId × TrackId) :
    lookupD (ks.foldl bump d) k = lookupD d k + countPair ks k := by
  induction ks generalizing d with
  | nil => simp [countPair]
  | cons hd rest ih =>
    rw [List.foldl_cons, ih]
    by_cases h : hd = k
    · subst h
      rw [lookupD_bump_self, countPair, if_pos rfl]
      omega
    · rw [lookupD_bump_ne _ _ _ (fun he => h he.symm), countPair, if_neg h]
      omega

theorem mem_keysD_foldl (ks : List (TrackId × TrackId))
    (d : List ((TrackId × TrackId) × Nat)) (k : TrackId × TrackId) :
    k ∈ keysD (ks.foldl bump d) ↔ k ∈ keysD d ∨ k ∈ ks := by
  induction ks generalizing d with
  | nil => simp
  | cons hd rest ih =>
    simp only [List.foldl_cons, ih, mem_keysD_bump, List.mem_cons]
    tauto

theorem nodup_keysD_foldl (ks : List (TrackId × TrackId))
    (d : List ((TrackId × TrackId) × Nat)) (h : (keysD d).Nodup) :
    (keysD (ks.foldl bump d)).Nodup := by
  induction ks generalizing d with
  | nil => exact h
  | cons hd rest ih => exact ih _ (nodup_keysD_bump _ _ h)

theorem pos_foldl (ks : List (TrackId × TrackId))
    (d : List ((TrackId × TrackId) × Nat)) (h : ∀ kc ∈ d, 0 < kc.2) :
    ∀ kc ∈ ks.foldl bump d, 0 < kc.2 := by
  induction ks generalizing d with
  | nil => exact h
  | cons hd rest ih => exact ih _ (pos_bump _ _ h)

theorem lookupD_of_mem (d : List ((TrackId × TrackId) × Nat))
    (hnd : (keysD d).Nodup) (kc : (TrackId × TrackId) × Nat) (h : kc ∈ d) :
    lookupD d kc.1 = kc.2 := by
  induction d with
  | nil => cases h
  | cons hd rest ih =>
    obtain ⟨k₀, c⟩ := hd
    rcases List.mem_cons.1 h with h' | h'
    · subst h'; simp [lookupD]
    · have hk : k₀ ≠ kc.1 := by
        intro he
        have : kc.1 ∈ keysD rest := List.mem_map_of_mem _ h'
        rw [keysD, List.map_cons] at hnd
        exact (List.nodup_cons.1 hnd).1 (he ▸ this)
      simp only [lookupD, if_neg hk]
      exact ih (List.nodup_cons.1 (by rwa [keysD, List.map_cons] at hnd)).2 h'

theorem lookupD_eq_zero_of_not_mem (d : List ((TrackId × TrackId) × Nat))
    (k : TrackId × TrackId) (h : k ∉ keysD d) : lookupD d k = 0 := by
  induction d with
  | nil => rfl
  | cons hd rest ih =>
    obtain ⟨k₀, c⟩ := hd
    have h0 : k₀ ≠ k := fun he => h (by simp [keysD, he])
    simp only [lookupD, if_neg h0]
    exact ih (fun hm => h (by simp [keysD] at hm ⊢; exact Or.inr hm))

/-- In a keys-Nodup dict with positive values, filtering by a key yields the
singleton holding its stored count, or nothing when the key is absent. -/
theorem filter_key_eq (d : List ((TrackId × TrackId) × Nat)) (k : TrackId × TrackId)
    (hnd : (keysD d).Nodup) (hpos : ∀ kc ∈ d, 0 < kc.2) :
    d.filter (fun kc => kc.1 = k)
      = if 0 < lookupD d k then [(k, lookupD d k)] else [] := by
  induction d with
  | nil => simp [lookupD]
  | cons hd rest ih =>
    obtain ⟨k₀, c⟩ := hd
    rw [keysD, List.map_cons, List.nodup_cons] at hnd
    by_cases h0 : k₀ = k
    · subst h0
      have hrest : rest.filter (fun kc => kc.1 = k₀) = [] := by
        apply List.filter_eq_nil_iff.2
        intro kc hkc
        simp only [decide_eq_true_eq]
        intro he
        apply hnd.1
        rw [← he]
        exact List.mem_map.2 ⟨kc, hkc, rfl⟩
      have hc : 0 < c := hpos _ (List.mem_cons_self _ _)
      simp [lookupD, hrest, hc]
    · have := ih hnd.2 (fun kc hkc => hpos _ (List.mem_cons_of_mem _ hkc))
      simp [lookupD, h0, this]

/-! ## Lemmas about `combinations2` on a strictly sorted list -/

theorem combinations2_mem_components (s : List TrackId) (p : TrackId × TrackId)
    (h : p ∈ combinations2 s) : p.1 ∈ s ∧ p.2 ∈ s := by
  induction s with
  | nil => simp [combinations2] at h
  | cons x rest ih =>
    rcases List.mem_append.1 h with h' | h'
    · rcases List.mem_map.1 h' with ⟨b, hb, he⟩
      rw [← he]
      exact ⟨List.mem_cons_self _ _, List.mem_cons_of_mem _ hb⟩
    · obtain ⟨h1, h2⟩ := ih h'
      exact ⟨List.mem_cons_of_mem _ h1, List.mem_cons_of_mem _ h2⟩

theorem mem_combinations2 (s : List TrackId) (hs : List.Sorted (· < ·) s)
    (a b : TrackId) :
    (a, b) ∈ combinations2 s ↔ a < b ∧ a ∈ s ∧ b ∈ s := by
  induction s with
  | nil => simp [combinations2]
  | cons x rest ih =>
    rw [List.sorted_cons] at hs
    constructor
    · intro h
      rcases List.mem_append.1 h with h' | h'
      · rcases List.mem_map.1 h' with ⟨b', hb', he⟩
        obtain ⟨he1, he2⟩ := Prod.mk.injEq .. ▸ he
        subst he1; subst he2
        exact ⟨hs.1 _ hb', List.mem_cons_self _ _, List.mem_cons_of_mem _ hb'⟩
      · obtain ⟨hab, ha, hb⟩ := (ih hs.2).1 h'
        exact ⟨hab, List.mem_cons_of_mem _ ha, List.mem_cons_of_mem _ hb⟩
    · rintro ⟨hab, ha, hb⟩
      rcases List.mem_cons.1 ha with rfl | ha'
      · rcases List.mem_cons.1 hb with rfl | hb'
        · exact absurd hab (lt_irrefl _)
        · exact List.mem_append.2 (Or.inl (List.mem_map.2 ⟨b, hb', rfl⟩))
      · rcases List.mem_cons.1 hb with rfl | hb'
        · exact absurd (lt_trans (hs.1 _ ha') hab) (lt_irrefl _)
        · exact List.mem_append.2 (Or.inr ((ih hs.2).2 ⟨hab, ha', hb'⟩))

theorem combinations2_lt (s : List TrackId) (hs : List.Sorted (· < ·) s) :
    ∀ p ∈ combinations2 s, p.1 < p.2 := by
  intro p hp
  obtain ⟨a, b⟩ := p
  exact ((mem_combinations2 s hs a b).1 hp).1

theorem sorted_lt_nodup (s : List TrackId) (hs : List.Sorted (· < ·) s) : s.Nodup :=
  List.Pairwise.imp (fun h => ne_of_lt h) hs

theorem combinations2_nodup (s : List TrackId) (hs : List.Sorted (· < ·) s) :
    (combinations2 s).Nodup := by
  induction s with
  | nil => simp [combinations2]
  | cons x rest ih =>
    rw [List.sorted_cons] at hs
    have hxrest : x ∉ rest := fun hx => absurd (hs.1 _ hx) (lt_irrefl _)
    have hrestnd : rest.Nodup := sorted_lt_nodup _ hs.2
    refine List.Nodup.append ?_ (ih hs.2) ?_
    · refine List.Nodup.map ?_ hrestnd
      intro b₁ b₂ he
      exact congrArg Prod.snd he
    · intro p hp1 hp2
      rcases List.mem_map.1 hp1 with ⟨b, _, he⟩
      have hx : p.1 = x := by rw [← he]
      have : p.1 ∈ rest := (combinations2_mem_components rest p hp2).1
      exact hxrest (hx ▸ this)

theorem countPair_combinations2 (s : List TrackId) (hs : List.Sorted (· < ·) s)
    (a b : TrackId) :
    countPair (combinations2 s) (a, b)
      = if a < b ∧ a ∈ s ∧ b ∈ s then 1 else 0 := by
  by_cases hmem : (a, b) ∈ combinations2 s
  · rw [countPair_eq_one_of_mem _ _ (combinations2_nodup s hs) hmem,
      if_pos ((mem_combinations2 s hs a b).1 hmem)]
  · rw [countPair_eq_zero_of_not_mem _ _ hmem, if_neg]
    intro hc
    exact hmem ((mem_combinations2 s hs a b).2 hc)

/-! ## Lemmas about `sortTracks` and `playlistPairs` -/

theorem sortTracks_perm (l : List TrackId) : List.Perm (sortTracks l) l :=
  List.perm_insertionSort _ l

theorem mem_sortTracks (l : List TrackId) (x : TrackId) :
    x ∈ sortTracks l ↔ x ∈ l :=
  (sortTracks_perm l).mem_iff

theorem sortTracks_sorted_lt (l : List TrackId) (hnd : l.Nodup) :
    List.Sorted (· < ·) (sortTracks l) := by
  have h1 : List.Sorted (· ≤ ·) (sortTracks l) := List.sorted_insertionSort _ l
  have h2 : (sortTracks l).Nodup := (sortTracks_perm l).nodup_iff.2 hnd
  exact List.Sorted.lt_of_le h1 h2

theorem map_canonPair_id (l : List (TrackId × TrackId)) (h : ∀ p ∈ l, p.1 < p.2) :
    l.map canonPair = l := by
  induction l with
  | nil => rfl
  | cons p rest ih =>
    have hp : canonPair p = p := by
      unfold canonPair
      rw [if_neg (lt_asymm (h p (List.mem_cons_self _ _)))]
    rw [List.map_cons, hp, ih (fun q hq => h q (List.mem_cons_of_mem _ hq))]

theorem two_mem_length_le (l : List TrackId) (a b : TrackId) (ha : a ∈ l)
    (hb : b ∈ l) (hab : a ≠ b) : 2 ≤ l.length := by
  rcases l with _ | ⟨x, _ | ⟨y, xs⟩⟩
  · cases ha
  · rw [List.mem_singleton] at ha hb
    exact absurd (ha.trans hb.symm) hab
  · simp only [List.length_cons]
    omega

theorem countPair_playlistPairs (pts : PlaylistTracks) (pid : Nat)
    (hnd : (playlistTracksOf pts pid).Nodup) (a b : TrackId) :
    countPair (playlistPairs pts pid) (a, b)
      = if a < b ∧ a ∈ playlistTracksOf pts pid ∧ b ∈ playlistTracksOf pts pid
        then 1 else 0 := by
  unfold playlistPairs
  by_cases hlen : (playlistTracksOf pts pid).length < 2
  · rw [if_pos hlen]
    by_cases hcond : a < b ∧ a ∈ playlistTracksOf pts pid ∧ b ∈ playlistTracksOf pts pid
    · exfalso
      obtain ⟨hab, ha, hb⟩ := hcond
      have := two_mem_length_le _ a b ha hb (ne_of_lt hab)
      omega
    · rw [if_neg hcond]
      rfl
  · rw [if_neg hlen]
    have hsorted : List.Sorted (· < ·) (sortTracks (playlistTracksOf pts pid)) :=
      sortTracks_sorted_lt _ hnd
    rw [map_canonPair_id _ (combinations2_lt _ hsorted),
      countPair_combinations2 _ hsorted]
    simp only [mem_sortTracks]

theorem playlistPairs_lt (pts : PlaylistTracks) (pid : Nat)
    (hnd : (playlistTracksOf pts pid).Nodup) :
    ∀ p ∈ playlistPairs pts pid, p.1 < p.2 := by
  intro p hp
  unfold playlistPairs at hp
  by_cases hlen : (playlistTracksOf pts pid).length < 2
  · rw [if_pos hlen] at hp
    cases hp
  · rw [if_neg hlen] at hp
    have hsorted : List.Sorted (· < ·) (sortTracks (playlistTracksOf pts pid)) :=
      sortTracks_sorted_lt _ hnd
    rw [map_canonPair_id _ (combinations2_lt _ hsorted)] at hp
    exact combinations2_lt _ hsorted p hp

/-! ## Characterization of the accumulation dict -/

theorem sum_map_ite (pls : List Nat) (P : Nat → Prop) [DecidablePred P] :
    (pls.map (fun pid => if P pid then 1 else 0)).sum
      = (pls.filter (fun pid => P pid)).length := by
  induction pls with
  | nil => rfl
  | cons hd rest ih =>
    by_cases h : P hd
    · simp [List.filter_cons, h, ih]
      omega
    · simp [List.filter_cons, h, ih]

theorem lookupD_cooccurrenceDict (pls : List Nat) (pts : PlaylistTracks)
    (hnd : ∀ pid ∈ pls, (playlistTracksOf pts pid).Nodup) (a b : TrackId) :
    lookupD (cooccurrenceDict pls pts) (a, b)
      = if a < b then playlistsContainingBoth pls pts a b else 0 := by
  unfold cooccurrenceDict
  rw [lookupD_foldl]
  have h0 : lookupD [] (a, b) = 0 := rfl
  rw [h0, Nat.zero_add, countPair_flatten, List.map_map]
  have hpt : ∀ pid ∈ pls,
      ((fun l => countPair l (a, b)) ∘ playlistPairs pts) pid
        = (fun pid => if a < b ∧ a ∈ playlistTracksOf pts pid
            ∧ b ∈ playlistTracksOf pts pid then 1 else 0) pid := by
    intro pid hpid
    exact countPair_playlistPairs pts pid (hnd pid hpid) a b
  rw [List.map_congr_left hpt]
  by_cases hab : a < b
  · rw [if_pos hab]
    have : ∀ pid, (if a < b ∧ a ∈ playlistTracksOf pts pid
        ∧ b ∈ playlistTracksOf pts pid then 1 else 0)
        = (if a ∈ playlistTracksOf pts pid ∧ b ∈ playlistTracksOf pts pid
          then 1 else 0) := by
      intro pid
      by_cases h : a ∈ playlistTracksOf pts pid ∧ b ∈ playlistTracksOf pts pid
      · rw [if_pos ⟨hab, h.1, h.2⟩, if_pos h]
      · rw [if_neg (fun hc => h ⟨hc.2.1, hc.2.2⟩), if_neg h]
    simp only [this]
    exact sum_map_ite pls _
  · rw [if_neg hab]
    have : ∀ pid, (if a < b ∧ a ∈ playlistTracksOf pts pid
        ∧ b ∈ playlistTracksOf pts pid then 1 else 0) = 0 := by
      intro pid
      rw [if_neg (fun hc => hab hc.1)]
    simp only [this]
    simp

theorem keysD_cooccurrenceDict_nodup (pls : List Nat) (pts : PlaylistTracks) :
    (keysD (cooccurrenceDict pls pts)).Nodup :=
  nodup_keysD_foldl _ _ (by simp [keysD])

theorem cooccurrenceDict_pos (pls : List Nat) (pts : PlaylistTracks) :
    ∀ kc ∈ cooccurrenceDict pls pts, 0 < kc.2 :=
  pos_foldl _ _ (by simp)

theorem cooccurrenceDict_lt (pls : List Nat) (pts : PlaylistTracks)
    (hnd : ∀ pid ∈ pls, (playlistTracksOf pts pid).Nodup) :
    ∀ kc ∈ cooccurrenceDict pls pts, kc.1.1 < kc.1.2 := by
  intro kc hkc
  have hk : kc.1 ∈ keysD (cooccurrenceDict pls pts) := List.mem_map.2 ⟨kc, hkc, rfl⟩
  unfold cooccurrenceDict at hk
  rw [mem_keysD_foldl] at hk
  rcases hk with hk | hk
  · simp [keysD] at hk
  · rcases List.mem_flatten.1 hk with ⟨l, hl, hp⟩
    rcases List.mem_map.1 hl with ⟨pid, hpid, he⟩
    rw [← he] at hp
    exact playlistPairs_lt pts pid (hnd pid hpid) _ hp

/-! ## From the dict to the stored table -/

theorem assignIds_map_snd (seq : Nat) (rs : List CoRow) :
    (assignIds seq rs).map (fun r => r.2) = rs := by
  induction rs generalizing seq with
  | nil => rfl
  | cons r rest ih => simp [assignIds, ih]

theorem storedRows_compute (t : CoTable) (pls : List Nat) (pts : PlaylistTracks) :
    storedRows (compute_track_cooccurrence t pls pts).1
      = dictToRows (cooccurrenceDict pls pts) := by
  unfold compute_track_cooccurrence storedRows
  exact assignIds_map_snd _ _

theorem storedRows_lt (pls : List Nat) (pts : PlaylistTracks) (t : CoTable)
    (hnd : ∀ pid ∈ pls, (playlistTracksOf pts pid).Nodup) :
    ∀ r ∈ storedRows (compute_track_cooccurrence t pls pts).1,
      r.track_a < r.track_b := by
  intro r hr
  rw [storedRows_compute] at hr
  rcases List.mem_map.1 hr with ⟨kc, hkc, he⟩
  have hk := cooccurrenceDict_lt pls pts hnd kc hkc
  rw [← he]
  exact hk

theorem storedRows_keys_nodup (pls : List Nat) (pts : PlaylistTracks) (t : CoTable) :
    ((storedRows (compute_track_cooccurrence t pls pts).1).map
      (fun r => (r.track_a, r.track_b))).Nodup := by
  rw [storedRows_compute]
  unfold dictToRows
  rw [List.map_map]
  exact keysD_cooccurrenceDict_nodup pls pts

theorem filter_dictToRows (d : List ((TrackId × TrackId) × Nat)) (a b : TrackId)
    (hnd : (keysD d).Nodup) (hpos : ∀ kc ∈ d, 0 < kc.2) :
    ((dictToRows d).filter (fun r => r.track_a = a ∧ r.track_b = b)).map
        (fun r => r.cooccurrence_count)
      = if 0 < lookupD d (a, b) then [lookupD d (a, b)] else [] := by
  unfold dictToRows
  rw [List.filter_map]
  have hpq : ∀ kc ∈ d,
      ((fun r : CoRow => decide (r.track_a = a ∧ r.track_b = b)) ∘
        (fun kc : (TrackId × TrackId) × Nat => (⟨kc.1.1, kc.1.2, kc.2⟩ : CoRow))) kc
      = decide (kc.1 = (a, b)) := by
    intro kc _
    simp only [Function.comp]
    apply decide_eq_decide.mpr
    constructor
    · rintro ⟨h1, h2⟩
      exact Prod.ext h1 h2
    · intro h
      exact ⟨congrArg Prod.fst h, congrArg Prod.snd h⟩
  rw [List.filter_congr hpq, filter_key_eq d (a, b) hnd hpos]
  by_cases h : 0 < lookupD d (a, b)
  · rw [if_pos h, if_pos h]
    rfl
  · rw [if_neg h, if_neg h]
    rfl

/-! ## Membership write path (`playlist_tracks`) -/

theorem mem_playlistTracksOf (pts : PlaylistTracks) (pid : Nat) (tid : TrackId) :
    tid ∈ playlistTracksOf pts pid ↔ (pid, tid) ∈ pts := by
  unfold playlistTracksOf
  constructor
  · intro h
    rcases List.mem_map.1 h with ⟨r, hr, he⟩
    rcases List.mem_filter.1 hr with ⟨hrm, hfst⟩
    have h1 : r.1 = pid := of_decide_eq_true hfst
    have : r = (pid, tid) := Prod.ext h1 he
    exact this ▸ hrm
  · intro h
    apply List.mem_map.2
    refine ⟨(pid, tid), List.mem_filter.2 ⟨h, by simp⟩, rfl⟩

theorem add_track_mem_noop (pts : PlaylistTracks) (pid : Nat) (tid : TrackId)
    (h : (pid, tid) ∈ pts) : add_track_to_playlist pts pid tid = pts := by
  unfold add_track_to_playlist
  rw [if_pos h]

theorem mem_add_track (pts : PlaylistTracks) (pid : Nat) (tid : TrackId) :
    (pid, tid) ∈ add_track_to_playlist pts pid tid := by
  unfold add_track_to_playlist
  by_cases hm : (pid, tid) ∈ pts
  · rw [if_pos hm]
    exact hm
  · rw [if_neg hm]
    exact List.mem_append.2 (Or.inr (List.mem_singleton.2 rfl))

theorem playlistTracksOf_append (pts : PlaylistTracks) (r : Nat × TrackId) (q : Nat) :
    playlistTracksOf (pts ++ [r]) q
      = playlistTracksOf pts q ++ (if r.1 = q then [r.2] else []) := by
  unfold playlistTracksOf
  rw [List.filter_append, List.map_append]
  by_cases h : r.1 = q
  · simp [List.filter_cons, h]
  · simp [List.filter_cons, h]

/-- Membership states reachable through the insert handler keep each
playlist's membership duplicate-free — the `UNIQUE(playlist_id, track_id)`
constraint realizes the spec's "treat membership as a set". -/
theorem add_track_preserves_nodup (pts : PlaylistTracks) (pid : Nat) (tid : TrackId)
    (hnd : ∀ q, (playlistTracksOf pts q).Nodup) :
    ∀ q, (playlistTracksOf (add_track_to_playlist pts pid tid) q).Nodup := by
  intro q
  unfold add_track_to_playlist
  by_cases hm : (pid, tid) ∈ pts
  · rw [if_pos hm]
    exact hnd q
  · rw [if_neg hm, playlistTracksOf_append]
    by_cases hq : pid = q
    · subst hq
      simp only [if_pos rfl]
      refine List.Nodup.append (hnd pid) (List.nodup_singleton _) ?_
      intro x hx hx'
      simp at hx'
      subst hx'
      exact hm ((mem_playlistTracksOf pts pid _).1 hx)
    · have : ((pid, tid) : Nat × TrackId).1 = q ↔ False := by
        simp [hq]
      simp only [this, if_false, List.append_nil]
      exact hnd q

/-! ## Claim theorems C1 – C4 -/

/-- **C1.** For every playlist-membership relation (each playlist's
membership duplicate-free, as the `UNIQUE(playlist_id, track_id)` schema
guarantees), the batch builder materializes exactly one row per unordered
pair of distinct co-occurring tracks, stored under its canonical orientation
`a < b`, whose count equals the number of playlists containing both tracks;
pairs sharing no playlist, identical pairs, and non-canonical orientations
get no row.  Playlists with fewer than two tracks contribute nothing (they
contain no two distinct tracks). -/
theorem cooccurrence_count_correct (pls : List Nat) (pts : PlaylistTracks)
    (t : CoTable) (_hpls : pls.Nodup)
    (hnd : ∀ pid ∈ pls, (playlistTracksOf pts pid).Nodup) (a b : TrackId) :
    ((storedRows (compute_track_cooccurrence t pls pts).1).filter
        (fun r => r.track_a = a ∧ r.track_b = b)).map
        (fun r => r.cooccurrence_count)
      = if a < b ∧ 0 < playlistsContainingBoth pls pts a b
        then [playlistsContainingBoth pls pts a b] else [] := by
  rw [storedRows_compute,
    filter_dictToRows _ _ _ (keysD_cooccurrenceDict_nodup pls pts)
      (cooccurrenceDict_pos pls pts),
    lookupD_cooccurrenceDict pls pts hnd a b]
  by_cases hab : a < b
  · rw [if_pos hab]
    by_cases hpos : 0 < playlistsContainingBoth pls pts a b
    · rw [if_pos hpos, if_pos ⟨hab, hpos⟩]
    · rw [if_neg hpos, if_neg (fun hc => hpos hc.2)]
  · rw [if_neg hab, if_neg (lt_irrefl 0), if_neg (fun hc => hab hc.1)]

/-- Witness for C1: the spec's own scenario — playlist 1 = {A, B, C},
playlist 2 = {A, B}; the (A, B) row carries count 2. -/
theorem cooccurrence_count_correct_witness :
    ([1, 2] : List Nat).Nodup
    ∧ (∀ pid ∈ ([1, 2] : List Nat), (playlistTracksOf
        [(1, ['A']), (1, ['B']), (1, ['C']), (2, ['A']), (2, ['B'])] pid).Nodup)
    ∧ ((storedRows (compute_track_cooccurrence ⟨0, []⟩ [1, 2]
          [(1, ['A']), (1, ['B']), (1, ['C']), (2, ['A']), (2, ['B'])]).1).filter
        (fun r => r.track_a = ['A'] ∧ r.track_b = ['B'])).map
        (fun r => r.cooccurrence_count)
      = if (['A'] : TrackId) < ['B'] ∧ 0 < playlistsContainingBoth [1, 2]
            [(1, ['A']), (1, ['B']), (1, ['C']), (2, ['A']), (2, ['B'])] ['A'] ['B']
        then [playlistsContainingBoth [1, 2]
            [(1, ['A']), (1, ['B']), (1, ['C']), (2, ['A']), (2, ['B'])] ['A'] ['B']]
        else [] :=
  ⟨by decide, by decide,
    cooccurrence_count_correct _ _ _ (by decide) (by decide) ['A'] ['B']⟩

/-- **C2.** Every row the batch builder stores satisfies the canonical
ordering invariant `track_a < track_b` (hence `track_a ≠ track_b`), and no
unordered pair is ever stored in both orientations.  The builder is the
only write path of `track_cooccurrence` and replaces the table wholesale,
so this covers every stored row. -/
theorem cooccurrence_canonical_order (pls : List Nat) (pts : PlaylistTracks)
    (t : CoTable)
    (hnd : ∀ pid ∈ pls, (playlistTracksOf pts pid).Nodup) :
    (∀ r ∈ storedRows (compute_track_cooccurrence t pls pts).1,
        r.track_a < r.track_b)
    ∧ ∀ r ∈ storedRows (compute_track_cooccurrence t pls pts).1,
        ∀ r' ∈ storedRows (compute_track_cooccurrence t pls pts).1,
          ¬(r.track_a = r'.track_b ∧ r.track_b = r'.track_a) := by
  have hlt := storedRows_lt pls pts t hnd
  refine ⟨hlt, ?_⟩
  rintro r hr r' hr' ⟨h1, h2⟩
  have ha := hlt r hr
  have hb := hlt r' hr'
  rw [h1, h2] at ha
  exact absurd (lt_trans ha hb) (lt_irrefl _)

/-- Witness for C2 at a concrete two-playlist state. -/
theorem cooccurrence_canonical_order_witness :
    (∀ pid ∈ ([1, 2] : List Nat), (playlistTracksOf
        [(1, ['A']), (1, ['B']), (1, ['C']), (2, ['A']), (2, ['B'])] pid).Nodup)
    ∧ ((∀ r ∈ storedRows (compute_track_cooccurrence ⟨0, []⟩ [1, 2]
          [(1, ['A']), (1, ['B']), (1, ['C']), (2, ['A']), (2, ['B'])]).1,
        r.track_a < r.track_b)
      ∧ ∀ r ∈ storedRows (compute_track_cooccurrence ⟨0, []⟩ [1, 2]
          [(1, ['A']), (1, ['B']), (1, ['C']), (2, ['A']), (2, ['B'])]).1,
        ∀ r' ∈ storedRows (compute_track_cooccurrence ⟨0, []⟩ [1, 2]
          [(1, ['A']), (1, ['B']), (1, ['C']), (2, ['A']), (2, ['B'])]).1,
          ¬(r.track_a = r'.track_b ∧ r.track_b = r'.track_a)) :=
  ⟨by decide, cooccurrence_canonical_order _ _ _ (by decide)⟩

/-- **C3 counterexample.** Rebuilding twice is NOT byte-identical in every
stored column: the `id INTEGER PRIMARY KEY AUTOINCREMENT` column keeps
counting across the `DELETE FROM` (SQLite's AUTOINCREMENT never reuses
ids), so the second run stores the same logical rows under different ids.
Here the sole row gets id 1 on the first run and id 2 on the second. -/
theorem rebuild_not_byte_identical :
    (compute_track_cooccurrence
        (compute_track_cooccurrence ⟨0, []⟩ [1] [(1, ['A']), (1, ['B'])]).1
        [1] [(1, ['A']), (1, ['B'])]).1
      ≠ (compute_track_cooccurrence ⟨0, []⟩ [1] [(1, ['A']), (1, ['B'])]).1 := by
  decide

/-- **C3 amended.** Rebuilding with unchanged membership data is idempotent
on the semantic columns: both runs store the same `(track_a, track_b,
cooccurrence_count)` rows in the same order; only the surrogate
AUTOINCREMENT `id` (and the wall-clock `last_computed_at`) differ. -/
theorem rebuild_idempotent_content (t : CoTable) (pls : List Nat)
    (pts : PlaylistTracks) :
    storedRows (compute_track_cooccurrence
        (compute_track_cooccurrence t pls pts).1 pls pts).1
      = storedRows (compute_track_cooccurrence t pls pts).1 := by
  rw [storedRows_compute, storedRows_compute]

/-- **C4.** Duplicate memberships of one track within a playlist are
deduplicated before the pairing step ever sees them — enforced at write
time by `UNIQUE(playlist_id, track_id)` (db_final.py line 88, surfaced as
the caught `IntegrityError` in app.py lines 663-672, the only write path
of `playlist_tracks`): listing track A a second time is a no-op, so a
playlist whose membership listed A twice holds exactly the same membership
— and the batch builder computes exactly the same pairs, with the same
counts — as the same playlist listing A once; membership stays a
duplicate-free set, so the builder never sees a multiset. -/
theorem duplicate_listing_same_pairs (pts : PlaylistTracks) (pid : Nat)
    (tid : TrackId) (t : CoTable) (pls : List Nat)
    (hnd : ∀ q, (playlistTracksOf pts q).Nodup) :
    compute_track_cooccurrence t pls
        (add_track_to_playlist (add_track_to_playlist pts pid tid) pid tid)
      = compute_track_cooccurrence t pls (add_track_to_playlist pts pid tid)
    ∧ ∀ q, (playlistTracksOf
        (add_track_to_playlist (add_track_to_playlist pts pid tid) pid tid)
          q).Nodup := by
  have hid : add_track_to_playlist (add_track_to_playlist pts pid tid) pid tid
      = add_track_to_playlist pts pid tid :=
    add_track_mem_noop _ _ _ (mem_add_track pts pid tid)
  constructor
  · rw [hid]
  · rw [hid]
    exact add_track_preserves_nodup pts pid tid hnd

/-- Witness for C4: adding track A twice to playlist 1 of an empty
membership table yields the same builder output as adding it once, and
every playlist's membership stays duplicate-free. -/
theorem duplicate_listing_same_pairs_witness :
    (∀ q, (playlistTracksOf ([] : PlaylistTracks) q).Nodup)
    ∧ (compute_track_cooccurrence ⟨0, []⟩ [1]
          (add_track_to_playlist (add_track_to_playlist [] 1 ['A']) 1 ['A'])
        = compute_track_cooccurrence ⟨0, []⟩ [1]
          (add_track_to_playlist [] 1 ['A'])
      ∧ ∀ q, (playlistTracksOf
          (add_track_to_playlist (add_track_to_playlist [] 1 ['A']) 1 ['A'])
            q).Nodup) :=
  ⟨fun _ => List.nodup_nil,
   duplicate_listing_same_pairs [] 1 ['A'] ⟨0, []⟩ [1] (fun _ => List.nodup_nil)⟩

/-! ## Lemmas about the affinity lookup -/

theorem mem_get_cooccurring_sound (rows : List CoRow) (tid : TrackId)
    (limit : Nat) (p : TrackId × Nat) (hp : p ∈ get_cooccurring_tracks rows tid limit) :
    ∃ r ∈ rows, (r.track_a = tid ∨ r.track_b = tid)
      ∧ p = (if r.track_a = tid then r.track_b else r.track_a,
          r.cooccurrence_count) := by
  unfold get_cooccurring_tracks at hp
  have hp1 : p ∈ List.insertionSort countDescRel (relatedEntries rows tid) :=
    List.take_subset _ _ hp
  have hp2 : p ∈ relatedEntries rows tid :=
    (List.perm_insertionSort countDescRel _).mem_iff.1 hp1
  unfold relatedEntries at hp2
  rcases List.mem_map.1 hp2 with ⟨r, hr, he⟩
  rcases List.mem_filter.1 hr with ⟨hrm, hcond⟩
  exact ⟨r, hrm, of_decide_eq_true hcond, he.symm⟩

theorem mem_get_cooccurring_complete (rows : List CoRow) (tid : TrackId)
    (limit : Nat) (hlen : (relatedEntries rows tid).length ≤ limit)
    (r : CoRow) (hr : r ∈ rows) (h : r.track_a = tid ∨ r.track_b = tid) :
    (if r.track_a = tid then r.track_b else r.track_a, r.cooccurrence_count)
      ∈ get_cooccurring_tracks rows tid limit := by
  unfold get_cooccurring_tracks
  have hmem : (if r.track_a = tid then r.track_b else r.track_a,
      r.cooccurrence_count) ∈ relatedEntries rows tid := by
    unfold relatedEntries
    exact List.mem_map.2 ⟨r, List.mem_filter.2 ⟨hr, decide_eq_true h⟩, rfl⟩
  rw [List.take_of_length_le]
  · exact (List.perm_insertionSort countDescRel _).mem_iff.2 hmem
  · rw [(List.perm_insertionSort countDescRel _).length_eq]
    exact hlen

/-! ## Claim theorem C6

(No theorem is stated for C5: the query's `ORDER BY` carries
`cooccurrence_count DESC` as its only key, so the claimed identifier
tie-break is neither implied nor refutable from the source — the SQL
leaves the equal-count order undefined and different valid plans realize
different orders.) -/

/-- **C6.** Every returned entry of the affinity lookup is the "other
side" of a stored row involving the query track — `track_b` when the row
stores the query as `track_a`, otherwise `track_a` — so pairs not
involving the query are never returned; conversely (when `limit` does not
truncate) every stored row involving the query track contributes its other
side to the output. -/
theorem lookup_maps_other_side (rows : List CoRow) (tid : TrackId)
    (limit : Nat) :
    (∀ p ∈ get_cooccurring_tracks rows tid limit,
      ∃ r ∈ rows, (r.track_a = tid ∨ r.track_b = tid)
        ∧ p = (if r.track_a = tid then r.track_b else r.track_a,
            r.cooccurrence_count))
    ∧ ((relatedEntries rows tid).length ≤ limit →
      ∀ r ∈ rows, (r.track_a = tid ∨ r.track_b = tid) →
        (if r.track_a = tid then r.track_b else r.track_a,
          r.cooccurrence_count) ∈ get_cooccurring_tracks rows tid limit) :=
  ⟨fun p hp => mem_get_cooccurring_sound rows tid limit p hp,
   fun hlen r hr h => mem_get_cooccurring_complete rows tid limit hlen r hr h⟩

/-- Witness for C6: a single row (A, B, 3) queried from the `track_b` slot
returns A with count 3. -/
theorem lookup_maps_other_side_witness :
    ((relatedEntries [⟨['A'], ['B'], 3⟩] ['B']).length ≤ 20)
    ∧ ((if (⟨['A'], ['B'], 3⟩ : CoRow).track_a = ['B']
          then (⟨['A'], ['B'], 3⟩ : CoRow).track_b
          else (⟨['A'], ['B'], 3⟩ : CoRow).track_a,
        (⟨['A'], ['B'], 3⟩ : CoRow).cooccurrence_count)
      ∈ get_cooccurring_tracks [⟨['A'], ['B'], 3⟩] ['B'] 20) :=
  ⟨by decide, (lookup_maps_other_side [⟨['A'], ['B'], 3⟩] ['B'] 20).2
    (by decide) ⟨['A'], ['B'], 3⟩ (by decide) (by decide)⟩

/-! ## Lemmas for the recommendation endpoint -/

theorem relatedOthers_nodup (rows : List CoRow) (tid : TrackId)
    (hkeys : (rows.map (fun r => (r.track_a, r.track_b))).Nodup)
    (hlt : ∀ r ∈ rows, r.track_a < r.track_b) :
    ((relatedEntries rows tid).map (fun p => p.1)).Nodup := by
  unfold relatedEntries
  rw [List.map_map]
  have hsub : List.Sublist
      (rows.filter (fun r => r.track_a = tid ∨ r.track_b = tid)) rows :=
    List.filter_sublist _
  have hkeys' : ((rows.filter (fun r => r.track_a = tid ∨ r.track_b = tid)).map
      (fun r => (r.track_a, r.track_b))).Nodup :=
    List.Nodup.sublist (List.Sublist.map _ hsub) hkeys
  have hpair := List.pairwise_map.1 hkeys'
  apply List.pairwise_map.2
  refine List.Pairwise.imp_of_mem ?_ hpair
  intro r r' hrm hr'm hne heq
  have hr1 : r.track_a = tid ∨ r.track_b = tid :=
    of_decide_eq_true (List.mem_filter.1 hrm).2
  have hr2 : r'.track_a = tid ∨ r'.track_b = tid :=
    of_decide_eq_true (List.mem_filter.1 hr'm).2
  have hl1 : r.track_a < r.track_b := hlt r (List.mem_filter.1 hrm).1
  have hl2 : r'.track_a < r'.track_b := hlt r' (List.mem_filter.1 hr'm).1
  apply hne
  simp only [Function.comp] at heq
  by_cases h1 : r.track_a = tid
  · by_cases h2 : r'.track_a = tid
    · rw [if_pos h1, if_pos h2] at heq
      rw [h1, h2, heq]
    · rw [if_pos h1, if_neg h2] at heq
      have hb2 : r'.track_b = tid := hr2.resolve_left h2
      exfalso
      rw [h1] at hl1
      rw [heq] at hl1
      rw [hb2] at hl2
      exact absurd (lt_trans hl1 hl2) (lt_irrefl _)
  · have hb1 : r.track_b = tid := hr1.resolve_left h1
    by_cases h2 : r'.track_a = tid
    · rw [if_neg h1, if_pos h2] at heq
      exfalso
      rw [hb1] at hl1
      rw [h2] at hl2
      rw [heq] at hl1
      exact absurd (lt_trans hl2 hl1) (lt_irrefl _)
    · rw [if_neg h1, if_neg h2] at heq
      have hb2 : r'.track_b = tid := hr2.resolve_left h2
      rw [heq, hb1, hb2]

theorem get_cooccurring_map_fst_nodup (rows : List CoRow) (tid : TrackId)
    (limit : Nat)
    (hkeys : (rows.map (fun r => (r.track_a, r.track_b))).Nodup)
    (hlt : ∀ r ∈ rows, r.track_a < r.track_b) :
    ((get_cooccurring_tracks rows tid limit).map (fun p => p.1)).Nodup := by
  have h1 := relatedOthers_nodup rows tid hkeys hlt
  have hperm := (List.perm_insertionSort countDescRel
    (relatedEntries rows tid)).map (fun p : TrackId × Nat => p.1)
  have h2 : ((List.insertionSort countDescRel (relatedEntries rows tid)).map
      (fun p => p.1)).Nodup := hperm.nodup_iff.2 h1
  exact List.Nodup.sublist
    (List.Sublist.map _ (List.take_sublist _ _)) h2

/-! ## Claim theorems C7 – C8 -/

/-- **C7.** For a user whose seed set is the single track X, the
recommendation output (built on `get_cooccurring_tracks` over a table the
batch builder produced) never contains X itself and never contains
duplicate identifiers. -/
theorem recommendations_exclude_seed (pls : List Nat) (pts : PlaylistTracks)
    (t : CoTable) (likes : List (Nat × TrackId)) (uid : Nat) (X : TrackId)
    (hnd : ∀ pid ∈ pls, (playlistTracksOf pts pid).Nodup)
    (hseed : (likes.filter (fun l => l.1 = uid)).map (fun l => l.2) = [X]) :
    ∃ recs, (get_recommendations likes
        (storedRows (compute_track_cooccurrence t pls pts).1) uid).recommendations
        = some recs ∧ X ∉ recs ∧ recs.Nodup := by
  have hfl : firstLike likes uid = some X := by
    unfold firstLike
    rw [hseed]
    rfl
  refine ⟨(get_cooccurring_tracks
      (storedRows (compute_track_cooccurrence t pls pts).1) X 4).map (fun p => p.1),
    ?_, ?_, ?_⟩
  · unfold get_recommendations
    rw [hfl]
  · intro hmem
    rcases List.mem_map.1 hmem with ⟨p, hp, hpx⟩
    rcases mem_get_cooccurring_sound _ X 4 p hp with ⟨r, hr, _, hpe⟩
    have hltr := storedRows_lt pls pts t hnd r hr
    have hother : (if r.track_a = X then r.track_b else r.track_a) = X := by
      rw [hpe] at hpx
      exact hpx
    by_cases h1 : r.track_a = X
    · rw [if_pos h1] at hother
      rw [h1, hother] at hltr
      exact absurd hltr (lt_irrefl X)
    · rw [if_neg h1] at hother
      exact h1 hother
  · exact get_cooccurring_map_fst_nodup _ X 4
      (storedRows_keys_nodup pls pts t) (storedRows_lt pls pts t hnd)

/-- Witness for C7: user 1's sole like is A over the two-playlist state;
the recommendations exist, exclude A and are duplicate-free. -/
theorem recommendations_exclude_seed_witness :
    (∀ pid ∈ ([1, 2] : List Nat), (playlistTracksOf
        [(1, ['A']), (1, ['B']), (1, ['C']), (2, ['A']), (2, ['B'])] pid).Nodup)
    ∧ (([(1, ['A'])] : List (Nat × TrackId)).filter (fun l => l.1 = 1)).map
        (fun l => l.2) = [['A']]
    ∧ ∃ recs, (get_recommendations [(1, ['A'])]
        (storedRows (compute_track_cooccurrence ⟨0, []⟩ [1, 2]
          [(1, ['A']), (1, ['B']), (1, ['C']), (2, ['A']), (2, ['B'])]).1)
        1).recommendations = some recs ∧ (['A'] : TrackId) ∉ recs ∧ recs.Nodup :=
  ⟨by decide, by decide,
    recommendations_exclude_seed [1, 2]
      [(1, ['A']), (1, ['B']), (1, ['C']), (2, ['A']), (2, ['B'])]
      ⟨0, []⟩ [(1, ['A'])] 1 ['A'] (by decide) (by decide)⟩

/-- **C8 counterexample.** For a user with no likes the endpoint does NOT
return an empty recommendation list with a success indicator: it returns a
404 with `success: false` and no `recommendations` field at all. -/
theorem empty_seed_reports_error :
    ¬ ((get_recommendations [] [] 1).recommendations = some []
        ∧ (get_recommendations [] [] 1).success = true) := by
  decide

/-- **C8 amended.** For every user with no likes the endpoint never raises
(it is a total function) and deterministically returns the 404 "no likes
yet" response: `success: false`, no recommendations list, and the
no-signal message — an error-shaped response rather than the spec's
"empty list plus no-signal indicator, not an error". -/
theorem empty_seed_no_signal (likes : List (Nat × TrackId)) (rows : List CoRow)
    (uid : Nat) (h : likes.filter (fun l => l.1 = uid) = []) :
    get_recommendations likes rows uid
      = ⟨false, 404, none, some noLikesMessage⟩ := by
  unfold get_recommendations firstLike
  rw [h]
  rfl

/-- Witness for the amended C8 at a concrete empty-likes state. -/
theorem empty_seed_no_signal_witness :
    (([] : List (Nat × TrackId)).filter (fun l => l.1 = 7) = [])
    ∧ get_recommendations [] [] 7 = ⟨false, 404, none, some noLikesMessage⟩ :=
  ⟨rfl, empty_seed_no_signal [] [] 7 rfl⟩

/-! ## Claim theorems C9 – C10 -/

/-- **C9.** A pair with a zero marginal always scores 0 — the guard fires
before any division or logarithm, so nothing is evaluated that could
raise, and the result type has no NaN/infinite values; with both marginals
positive the score is exactly `ln(co_count * N / (a_count * b_count))`. -/
theorem score_pmi_zero_guard (log : ℚ → ℚ) (co N a b : Nat) :
    (a = 0 ∨ b = 0 → score_pmi log co N a b = 0)
    ∧ (0 < a → 0 < b → score_pmi log co N a b
        = log ((co * N : ℚ) / (a * b))) := by
  constructor
  · intro h
    unfold score_pmi
    rw [if_neg]
    rintro ⟨ha, hb⟩
    rcases h with h | h
    · omega
    · omega
  · intro ha hb
    unfold score_pmi
    rw [if_pos ⟨ha, hb⟩]

/-- Witness for C9: with `a_count = 0` the score is 0; with positive
marginals (co = 3, N = 10, a = 2, b = 5) it is the log of 3. -/
theorem score_pmi_zero_guard_witness :
    score_pmi (fun q => q) 3 10 0 5 = 0
    ∧ score_pmi (fun q => q) 3 10 2 5 = 3 :=
  ⟨(score_pmi_zero_guard (fun q => q) 3 10 0 5).1 (Or.inl rfl),
   by
    have h := (score_pmi_zero_guard (fun q => q) 3 10 2 5).2
      (by norm_num) (by norm_num)
    rw [h]
    norm_num⟩

/-- **C10.** Saving a later search result for a track already present in
the catalog leaves the whole table — hence the existing row, in every
field — unchanged: upsert-if-absent semantics. -/
theorem save_track_upsert_if_absent (tracks : List TrackRow) (td : TrackRow)
    (h : ∃ r ∈ tracks, r.id = td.id) :
    save_track_from_spotify tracks td = tracks := by
  unfold save_track_from_spotify
  rcases h with ⟨r, hr, he⟩
  rw [if_pos]
  exact List.mem_map.2 ⟨r, hr, he⟩

/-- Witness for C10: re-saving track X with different metadata leaves the
stored row unchanged. -/
theorem save_track_upsert_if_absent_witness :
    (∃ r ∈ [(⟨['X'], some "old title", some "old artist", none, none, none,
        none, none, none, some 100, some 5⟩ : TrackRow)],
      r.id = (⟨['X'], some "new title", some "new artist", none, none, none,
        none, none, none, some 200, some 9⟩ : TrackRow).id)
    ∧ save_track_from_spotify
        [⟨['X'], some "old title", some "old artist", none, none, none,
          none, none, none, some 100, some 5⟩]
        ⟨['X'], some "new title", some "new artist", none, none, none,
          none, none, none, some 200, some 9⟩
      = [⟨['X'], some "old title", some "old artist", none, none, none,
          none, none, none, some 100, some 5⟩] :=
  ⟨⟨_, List.mem_singleton.2 rfl, rfl⟩,
   save_track_upsert_if_absent _ _ ⟨_, List.mem_singleton.2 rfl, rfl⟩⟩

end Auralyze
